import Mathlib

/-
Verification of the llamacpp generative-AI worker connector.

The definitions below are shallow embeddings of the TypeScript sources:
  - src/src/models/LlamacppGenerativeAIWorkerConnector.ts (two revisions in
    one file: the current connector and an older single-context revision),
  - src/unnamed/part_005 (the RAG connector revision and the compiled
    multi-sequence revision).
JavaScript strings are modelled as Lean String or List Char, JS Set as a
duplicate-free List, JS Map as an insertion-ordered association list, and
calls into the external inference engine as an explicit event trace.
-/

namespace LlamaSpec

/-! ## cleanText (LlamacppGenerativeAIWorkerConnector.ts lines 552-554)

Source: text.trim().toLowerCase().replace(/[^a-z0-9\s]/g, "").
Characters are modelled one to one; the JS toLowerCase mapping is modelled
on its ASCII action (the final character-class filter removes every
character outside a-z, 0-9 and whitespace, so the two properties proved
below do not depend on how non-ASCII letters are lowercased). -/

/-- Whitespace class of the JS regex \s and of String.prototype.trim:
tab, LF, VT, FF, CR, space, NBSP, and the Unicode space separators. -/
def isJsWhitespace (c : Char) : Bool :=
  c.toNat == 9 || c.toNat == 10 || c.toNat == 11 || c.toNat == 12 ||
  c.toNat == 13 || c.toNat == 32 || c.toNat == 160 || c.toNat == 0x1680 ||
  (decide (0x2000 ≤ c.toNat) && decide (c.toNat ≤ 0x200A)) ||
  c.toNat == 0x2028 || c.toNat == 0x2029 || c.toNat == 0x202F ||
  c.toNat == 0x205F || c.toNat == 0x3000 || c.toNat == 0xFEFF

/-- ASCII action of the JS toLowerCase. -/
def jsToLower (c : Char) : Char :=
  if 65 ≤ c.toNat ∧ c.toNat ≤ 90 then Char.ofNat (c.toNat + 32) else c

/-- ASCII letter test. -/
def isAsciiAlpha (c : Char) : Bool :=
  (decide (65 ≤ c.toNat) && decide (c.toNat ≤ 90)) ||
  (decide (97 ≤ c.toNat) && decide (c.toNat ≤ 122))

/-- The character class kept by the replace: [a-z0-9\s]. -/
def isKeptChar (c : Char) : Bool :=
  (decide (97 ≤ c.toNat) && decide (c.toNat ≤ 122)) ||
  (decide (48 ≤ c.toNat) && decide (c.toNat ≤ 57)) ||
  isJsWhitespace c

/-- String.prototype.trim: drop JS whitespace from both ends. -/
def jsTrim (s : List Char) : List Char :=
  ((s.dropWhile isJsWhitespace).reverse.dropWhile isJsWhitespace).reverse

/-- cleanText from the connector: trim, lowercase, then delete every
character outside [a-z0-9\s]. -/
def cleanText (s : List Char) : List Char :=
  ((jsTrim s).map jsToLower).filter isKeptChar

/-- Two characters that are equal, or are ASCII letters differing only in
case. -/
def caseVariantB (c d : Char) : Bool :=
  c == d || (isAsciiAlpha c && isAsciiAlpha d && (jsToLower c == jsToLower d))

/-- Two character lists that differ only in the case of ASCII letters. -/
def caseOnlyDiff : List Char → List Char → Bool
  | [], [] => true
  | c :: s, d :: t => caseVariantB c d && caseOnlyDiff s t
  | _, _ => false

theorem caseVariantB_toLower {c d : Char} (h : caseVariantB c d = true) :
    jsToLower c = jsToLower d := by
  unfold caseVariantB at h
  rcases Bool.or_eq_true_iff.mp h with h1 | h2
  · exact congrArg jsToLower (eq_of_beq h1)
  · exact eq_of_beq (Bool.and_eq_true_iff.mp h2).2

theorem isAsciiAlpha_not_ws {c : Char} (h : isAsciiAlpha c = true) :
    isJsWhitespace c = false := by
  unfold isAsciiAlpha at h
  unfold isJsWhitespace
  rcases Bool.or_eq_true_iff.mp h with h1 | h1 <;>
  · have h2 := Bool.and_eq_true_iff.mp h1
    have h3 := of_decide_eq_true h2.1
    have h4 := of_decide_eq_true h2.2
    simp only [Bool.or_eq_false_iff, beq_eq_false_iff_ne, ne_eq,
      Bool.and_eq_false_iff, decide_eq_false_iff_not, not_le]
    omega

theorem caseVariantB_ws {c d : Char} (h : caseVariantB c d = true) :
    isJsWhitespace c = isJsWhitespace d := by
  unfold caseVariantB at h
  rcases Bool.or_eq_true_iff.mp h with h1 | h2
  · exact congrArg isJsWhitespace (eq_of_beq h1)
  · have h3 := Bool.and_eq_true_iff.mp (Bool.and_eq_true_iff.mp h2).1
    rw [isAsciiAlpha_not_ws h3.1, isAsciiAlpha_not_ws h3.2]

theorem caseOnlyDiff_dropWhile {s t : List Char}
    (h : caseOnlyDiff s t = true) :
    caseOnlyDiff (s.dropWhile isJsWhitespace) (t.dropWhile isJsWhitespace)
      = true := by
  induction s generalizing t with
  | nil => cases t with
    | nil => simpa using h
    | cons d t2 => simp [caseOnlyDiff] at h
  | cons c s2 ih =>
    cases t with
    | nil => simp [caseOnlyDiff] at h
    | cons d t2 =>
      have h2 := Bool.and_eq_true_iff.mp h
      rw [List.dropWhile_cons, List.dropWhile_cons, caseVariantB_ws h2.1]
      by_cases hw : isJsWhitespace d = true
      · simpa [hw] using ih h2.2
      · simp only [Bool.not_eq_true] at hw
        simpa [hw, caseOnlyDiff] using h

theorem caseOnlyDiff_append {a b x y : List Char}
    (h1 : caseOnlyDiff a b = true) (h2 : caseOnlyDiff x y = true) :
    caseOnlyDiff (a ++ x) (b ++ y) = true := by
  induction a generalizing b with
  | nil => cases b with
    | nil => simpa using h2
    | cons d t2 => simp [caseOnlyDiff] at h1
  | cons c s2 ih =>
    cases b with
    | nil => simp [caseOnlyDiff] at h1
    | cons d t2 =>
      have h3 := Bool.and_eq_true_iff.mp h1
      simpa [caseOnlyDiff, h3.1] using ih h3.2

theorem caseOnlyDiff_reverse {s t : List Char}
    (h : caseOnlyDiff s t = true) :
    caseOnlyDiff s.reverse t.reverse = true := by
  induction s generalizing t with
  | nil => cases t with
    | nil => simpa using h
    | cons d t2 => simp [caseOnlyDiff] at h
  | cons c s2 ih =>
    cases t with
    | nil => simp [caseOnlyDiff] at h
    | cons d t2 =>
      have h2 := Bool.and_eq_true_iff.mp h
      rw [List.reverse_cons, List.reverse_cons]
      exact caseOnlyDiff_append (ih h2.2) (by simp [caseOnlyDiff, h2.1])

theorem caseOnlyDiff_map_toLower {s t : List Char}
    (h : caseOnlyDiff s t = true) :
    s.map jsToLower = t.map jsToLower := by
  induction s generalizing t with
  | nil => cases t with
    | nil => rfl
    | cons d t2 => simp [caseOnlyDiff] at h
  | cons c s2 ih =>
    cases t with
    | nil => simp [caseOnlyDiff] at h
    | cons d t2 =>
      have h2 := Bool.and_eq_true_iff.mp h
      simp only [List.map_cons]
      rw [caseVariantB_toLower h2.1, ih h2.2]

/-- Claim C10: every character of cleanText output lies in the kept class
[a-z0-9\s], and two inputs that differ only in the case of ASCII letters
clean to the same string, so the text a vector job sends to the embedding
engine is invariant under changing the case of the prompt. -/
theorem cleanText_alphabet_and_case_invariance :
    (∀ s : List Char, ∀ c ∈ cleanText s, isKeptChar c = true) ∧
    (∀ s t : List Char, caseOnlyDiff s t = true → cleanText s = cleanText t)
    := by
  constructor
  · intro s c hc
    exact (List.mem_filter.mp hc).2
  · intro s t h
    unfold cleanText jsTrim
    rw [caseOnlyDiff_map_toLower
      (caseOnlyDiff_reverse (caseOnlyDiff_dropWhile
        (caseOnlyDiff_reverse (caseOnlyDiff_dropWhile h))))]

/-- Claim C10 witness: the case-invariance hypothesis discharged on a
concrete pair of inputs. -/
theorem cleanText_case_invariance_witness :
    caseOnlyDiff "AbC 1!".data "aBc 1!".data = true ∧
    cleanText "AbC 1!".data = cleanText "aBc 1!".data :=
  ⟨by decide, cleanText_alphabet_and_case_invariance.2 _ _ (by decide)⟩

/-! ## normalizeVector, in both cited revisions

LlamacppGenerativeAIWorkerConnector.ts lines 562-565:
const norm = Math.sqrt(vector.reduce((sum, value) =>
sum + value * value, 0)); return vector.map((value) => value / norm).

part_005 lines 980-986 add a guard before the division:
if (Math.abs(norm - 1) < 0.01) return vector.map((value) => value);
so vectors whose norm is already within 0.01 of 1 pass through unchanged
and only the others are divided.

The embedding idealizes IEEE doubles as exact rationals plus the special
values NaN and the two infinities: rounding is abstracted away (the
literal 0.01 is idealized as the rational 1/100), while division by a
zero norm keeps its IEEE meaning (0/0 = NaN, x/0 = ±Inf).  The inputs
used in the closed theorems below (components 0 and 1) are exactly
representable and produce no rounding in IEEE arithmetic, and
Math.sqrt(0) = 0 exactly, so the counterexample transfers verbatim. -/

inductive JsNum where
  | val : ℚ → JsNum
  | nan : JsNum
  | inf : JsNum
  | ninf : JsNum
deriving DecidableEq

/-- reduce((sum, value) => sum + value * value, 0). -/
def normSq (v : List ℚ) : ℚ := v.foldl (fun s x => s + x * x) 0

/-- IEEE division for a finite numerator and a (possibly zero) finite
denominator. -/
def jsDiv (x r : ℚ) : JsNum :=
  if r = 0 then (if x = 0 then JsNum.nan else if 0 < x then JsNum.inf
    else JsNum.ninf)
  else JsNum.val (x / r)

/-- normalizeVector of the .ts revision (lines 562-565):
vector.map((value) => value / norm), with r standing for the value of
Math.sqrt(normSq v). -/
def normalizeVector (v : List ℚ) (r : ℚ) : List JsNum :=
  v.map (fun x => jsDiv x r)

/-- normalizeVector of the part_005 revision (lines 980-986): when the
norm is within 0.01 of 1 the vector is copied unchanged, otherwise each
component is divided by the norm. -/
def normalizeVectorDist (v : List ℚ) (r : ℚ) : List JsNum :=
  if |r - 1| < 1 / 100 then v.map JsNum.val
  else v.map (fun x => jsDiv x r)

/-- Finite components of a JsNum list. -/
def rawComponents (l : List JsNum) : List ℚ :=
  l.filterMap (fun n => match n with | JsNum.val q => some q | _ => none)

theorem normSq_foldl (a : ℚ) (v : List ℚ) :
    v.foldl (fun s x => s + x * x) a = a + normSq v := by
  induction v generalizing a with
  | nil => simp [normSq]
  | cons y w ih =>
    simp only [normSq, List.foldl_cons] at *
    rw [ih (a + y * y), ih (0 + y * y)]
    ring

theorem normSq_cons (x : ℚ) (v : List ℚ) :
    normSq (x :: v) = x * x + normSq v := by
  have h : normSq (x :: v)
      = List.foldl (fun s y => s + y * y) (0 + x * x) v := rfl
  rw [h, normSq_foldl]
  ring

theorem normSq_map_div (v : List ℚ) (r : ℚ) (hr : r ≠ 0) :
    normSq (v.map (fun x => x / r)) = normSq v / (r * r) := by
  induction v with
  | nil => simp [normSq]
  | cons y w ih =>
    rw [List.map_cons, normSq_cons, normSq_cons, ih]
    field_simp

theorem rawComponents_normalize (v : List ℚ) (r : ℚ) (hr : r ≠ 0) :
    rawComponents (normalizeVector v r) = v.map (fun x => x / r) := by
  unfold rawComponents normalizeVector
  induction v with
  | nil => rfl
  | cons y w ih =>
    simp only [List.map_cons, List.filterMap_cons]
    rw [show jsDiv y r = JsNum.val (y / r) by simp [jsDiv, hr]]
    simpa using ih

theorem rawComponents_map_val (v : List ℚ) :
    rawComponents (v.map JsNum.val) = v := by
  unfold rawComponents
  induction v with
  | nil => rfl
  | cons y w ih =>
    simp only [List.map_cons, List.filterMap_cons]
    simpa using ih

/-- Claim C9 counterexample: on the all-zero vector the reduce yields 0
and Math.sqrt(0) = 0 exactly; in the part_005 revision the guard fails
(|0 - 1| = 1 is not below 0.01), so both revisions divide and every
component becomes 0/0 = NaN: normalizeVector does return NaN. -/
theorem normalizeVector_zero_nan :
    normSq [(0 : ℚ), 0, 0] = 0 ∧
    normalizeVector [(0 : ℚ), 0, 0] 0
      = [JsNum.nan, JsNum.nan, JsNum.nan] ∧
    normalizeVectorDist [(0 : ℚ), 0, 0] 0
      = [JsNum.nan, JsNum.nan, JsNum.nan] := by
  refine ⟨by norm_num [normSq], by simp [normalizeVector, jsDiv], ?_⟩
  unfold normalizeVectorDist
  rw [if_neg (by norm_num)]
  simp [jsDiv]

/-- Claim C9 (amended): for every vector whose norm r is exact, nonneg
and nonzero, neither revision produces a NaN component; the .ts revision
returns a vector of squared L2 norm exactly 1, and the part_005 revision
returns a vector whose L2 norm lies within the 0.01 tolerance of 1 that
its own guard encodes - either the input already had |norm - 1| < 0.01
and passes through unchanged, or it is divided to exact unit norm. -/
theorem normalizeVector_unit_norm (v : List ℚ) (r : ℚ)
    (h1 : r * r = normSq v) (h0 : 0 ≤ r) (h2 : r ≠ 0) :
    ((∀ x ∈ normalizeVector v r, x ≠ JsNum.nan) ∧
      normSq (rawComponents (normalizeVector v r)) = 1) ∧
    ((∀ x ∈ normalizeVectorDist v r, x ≠ JsNum.nan) ∧
      ∃ r2 : ℚ, 0 ≤ r2 ∧
        r2 * r2 = normSq (rawComponents (normalizeVectorDist v r)) ∧
        |r2 - 1| < 1 / 100) := by
  have hts : (∀ x ∈ normalizeVector v r, x ≠ JsNum.nan) ∧
      normSq (rawComponents (normalizeVector v r)) = 1 := by
    constructor
    · intro x hx
      rcases List.mem_map.mp hx with ⟨q, _, hq⟩
      rw [← hq]
      simp [jsDiv, h2]
    · rw [rawComponents_normalize v r h2, normSq_map_div v r h2, h1]
      have hnz : normSq v ≠ 0 := by
        rw [← h1]
        exact mul_ne_zero h2 h2
      rw [h1] at *
      exact div_self hnz
  refine ⟨hts, ?_⟩
  unfold normalizeVectorDist
  by_cases hg : |r - 1| < 1 / 100
  · rw [if_pos hg]
    constructor
    · intro x hx
      rcases List.mem_map.mp hx with ⟨q, _, hq⟩
      rw [← hq]
      simp
    · exact ⟨r, h0, by rw [rawComponents_map_val]; exact h1, hg⟩
  · rw [if_neg hg]
    refine ⟨hts.1, 1, by norm_num, ?_, by norm_num⟩
    have h3 : normSq (rawComponents (v.map (fun x => jsDiv x r))) = 1 :=
      hts.2
    rw [h3]
    norm_num

/-- Claim C9 witness: the amended theorem applied to the already-unit
vector [1, 0] with exact norm 1. -/
theorem normalizeVector_unit_norm_witness :
    ((∀ x ∈ normalizeVector [(1 : ℚ), 0] 1, x ≠ JsNum.nan) ∧
      normSq (rawComponents (normalizeVector [(1 : ℚ), 0] 1)) = 1) ∧
    ((∀ x ∈ normalizeVectorDist [(1 : ℚ), 0] 1, x ≠ JsNum.nan) ∧
      ∃ r2 : ℚ, 0 ≤ r2 ∧
        r2 * r2 = normSq (rawComponents (normalizeVectorDist [(1 : ℚ), 0] 1))
          ∧ |r2 - 1| < 1 / 100) :=
  normalizeVector_unit_norm [1, 0] 1 (by norm_num [normSq]) (by norm_num)
    one_ne_zero

/-! ## Streaming sentinel protocol (processJobStream push sites)

The streaming path calls session.prompt with an onTextChunk callback that
emits each text chunk on an event emitter, and the generator body pulls
one emitted value per iteration, stopping at the first undefined.  The
embedding records the sequence of values the push site emits for a given
outcome of the underlying call; the pull loop terminates exactly when the
undefined sentinel (none) appears in that sequence.

Current revision (LlamacppGenerativeAIWorkerConnector.ts 457-484) and the
runPrompt helper of part_005 (lines 838-852): .then pushes undefined and
.catch logs the error and also pushes undefined.

Older revision (LlamacppGenerativeAIWorkerConnector.ts 885-908):
.then pushes undefined but .catch(e => \x7b\x7d) pushes nothing. -/

inductive PromptOutcome where
  | success : List String → PromptOutcome
  | failure : List String → PromptOutcome
deriving DecidableEq

/-- Values emitted by the push site of the current revision: the chunks
delivered before completion or failure, then the sentinel in both the
completion and the error handler. -/
def pushedTexts : PromptOutcome → List (Option String)
  | PromptOutcome.success cs => cs.map some ++ [none]
  | PromptOutcome.failure cs => cs.map some ++ [none]

/-- Values emitted by the push site of the older revision at lines
885-908: the error handler is an empty catch, so a failure pushes no
sentinel. -/
def pushedTextsLegacy : PromptOutcome → List (Option String)
  | PromptOutcome.success cs => cs.map some ++ [none]
  | PromptOutcome.failure cs => cs.map some

/-- The generator pull loop terminates exactly when the undefined sentinel
is among the emitted values. -/
def pullLoopTerminates (events : List (Option String)) : Prop :=
  none ∈ events

/-- Claim C5 counterexample: in the revision at lines 885-908 a prompt
failure before any chunk emits nothing at all, so the pull loop never
receives the sentinel and waits forever. -/
theorem legacy_stream_error_hangs :
    ¬ pullLoopTerminates (pushedTextsLegacy (PromptOutcome.failure []))
    := by
  simp [pullLoopTerminates, pushedTextsLegacy]

/-- Claim C5 (amended): in the current processJobStream (lines 457-484)
and in the runPrompt helper of part_005, the error is swallowed at the
push site but the sentinel is still pushed, so the pull loop terminates
for every outcome of the underlying call. -/
theorem stream_sentinel_terminates (o : PromptOutcome) :
    pullLoopTerminates (pushedTexts o) := by
  cases o <;> simp [pullLoopTerminates, pushedTexts]

/-! ## getPrompt history trimming
(LlamacppGenerativeAIWorkerConnector.ts lines 913-936; the part_005
revision at lines 265-301 has the same trimming loop with a RAG section
in the preamble)

The source walks the history from the newest turn backward; a turn is
included while conversationLength + tokenize(message).length does not
exceed trainContextSize * 0.75, and including it adds
tokenize(serialized turn).length to conversationLength.  The tokenizer is
external; it is modelled by the length function tokLen.  The comparison
x > T * 0.75 on IEEE doubles is exact for integer x and T below 2^51
(0.75 * T is the dyadic rational 3T/4), so it is embedded as the integer
comparison 4 * x > 3 * T. -/

structure HistItem where
  source : String
  message : String
deriving DecidableEq

/-- One serialized conversation turn, as interpolated by the source:
source === "ai" ? "AI" : "Human", then ": ", the message, then a newline. -/
def serializeTurn (it : HistItem) : String :=
  (if it.source = "ai" then "AI" else "Human") ++ ": " ++ it.message ++ "\n"

/-- The fixed tail "Human: ", the prompt, a newline and "AI:" appended
after the history. -/
def promptTail (prompt : String) : String := "Human: " ++ prompt ++ "\nAI:"

/-- The backward for-loop of getPrompt: first argument is the history
newest-first, conv the conversation string built so far, cl the running
conversationLength.  A turn whose message would push cl over the budget
stops the walk (break). -/
def trimWalk (tokLen : String → ℕ) (trainCtx : ℕ) :
    List HistItem → String → ℕ → String × ℕ
  | [], conv, cl => (conv, cl)
  | it :: older, conv, cl =>
    if 4 * (cl + tokLen it.message) > 3 * trainCtx then (conv, cl)
    else trimWalk tokLen trainCtx older (serializeTurn it ++ conv)
      (cl + tokLen (serializeTurn it))

/-- The turns the walk accepts, newest-first. -/
def takeFits (tokLen : String → ℕ) (trainCtx : ℕ) :
    List HistItem → ℕ → List HistItem
  | [], _ => []
  | it :: older, cl =>
    if 4 * (cl + tokLen it.message) > 3 * trainCtx then []
    else it :: takeFits tokLen trainCtx older (cl + tokLen (serializeTurn it))

/-- The preamble measure the source initializes conversationLength with:
tokens of the prompt text built so far plus tokens of the fixed tail. -/
def promptPreambleLen (tokLen : String → ℕ) (instrDefault : String)
    (instructions : Option String) (prompt : String) : ℕ :=
  tokLen ((instructions.getD instrDefault) ++ "\n\n" ++ "Conversation:\n")
    + tokLen (promptTail prompt)

/-- The trimmed history actually assembled into the prompt, in
chronological order. -/
def trimmedHistory (tokLen : String → ℕ) (trainCtx : ℕ)
    (instrDefault : String) (instructions : Option String) (prompt : String)
    (h : List HistItem) : List HistItem :=
  (takeFits tokLen trainCtx h.reverse
    (promptPreambleLen tokLen instrDefault instructions prompt)).reverse

/-- getPrompt of the connector: instructions, the conversation marker, the
token-budget-trimmed history, then the prompt tail. -/
def getPromptTs (tokLen : String → ℕ) (trainCtx : ℕ) (instrDefault : String)
    (instructions : Option String) (prompt : String)
    (history : Option (List HistItem)) : String :=
  let fp1 := (instructions.getD instrDefault) ++ "\n\n" ++ "Conversation:\n"
  let conv :=
    match history with
    | none => ""
    | some h =>
      (trimWalk tokLen trainCtx h.reverse ""
        (promptPreambleLen tokLen instrDefault instructions prompt)).1
  fp1 ++ conv ++ promptTail prompt

/-- Cumulative tokenized size of the assembled history, stated the way the
claim states it: the sum of the tokenized sizes of the serialized turns
included in the prompt. -/
def assembledHistoryTokens (tokLen : String → ℕ) (trainCtx : ℕ)
    (instrDefault : String) (instructions : Option String) (prompt : String)
    (h : List HistItem) : ℕ :=
  ((trimmedHistory tokLen trainCtx instrDefault instructions prompt h).map
    (fun it => tokLen (serializeTurn it))).sum

theorem takeFits_budget (tokLen : String → ℕ) (trainCtx K : ℕ)
    (hK : ∀ it : HistItem, tokLen (serializeTurn it)
      ≤ tokLen it.message + K) :
    ∀ (l : List HistItem) (cl : ℕ), K ≤ cl →
      4 * (cl + ((takeFits tokLen trainCtx l cl).map
        (fun it => tokLen (serializeTurn it))).sum)
      ≤ max (4 * cl) (3 * trainCtx + 4 * K) := by
  intro l
  induction l with
  | nil =>
    intro cl _
    simp [takeFits]
  | cons it older ih =>
    intro cl hcl
    unfold takeFits
    by_cases hb : 4 * (cl + tokLen it.message) > 3 * trainCtx
    · simp only [hb, if_true, List.map_nil, List.sum_nil]
      omega
    · simp only [hb, if_false, List.map_cons, List.sum_cons]
      have hacc := ih (cl + tokLen (serializeTurn it)) (by omega)
      have hser := hK it
      omega

theorem takeFits_isTake (tokLen : String → ℕ) (trainCtx : ℕ) :
    ∀ (l : List HistItem) (cl : ℕ),
      ∃ rest, l = takeFits tokLen trainCtx l cl ++ rest := by
  intro l
  induction l with
  | nil => exact fun _ => ⟨[], rfl⟩
  | cons it older ih =>
    intro cl
    unfold takeFits
    by_cases hb : 4 * (cl + tokLen it.message) > 3 * trainCtx
    · exact ⟨it :: older, by simp [hb]⟩
    · rcases ih (cl + tokLen (serializeTurn it)) with ⟨rest, hrest⟩
      exact ⟨rest, by simp only [hb, if_false]; rw [List.cons_append, ← hrest]⟩

theorem join_append_single (xs : List String) (y : String) :
    String.join (xs ++ [y]) = String.join xs ++ y := by
  apply String.ext
  simp [String.join_eq]

theorem trimWalk_join (tokLen : String → ℕ) (trainCtx : ℕ) :
    ∀ (l : List HistItem) (conv : String) (cl : ℕ),
      (trimWalk tokLen trainCtx l conv cl).1
        = String.join (((takeFits tokLen trainCtx l cl).reverse.map
            serializeTurn)) ++ conv := by
  intro l
  induction l with
  | nil =>
    intro conv cl
    simp [trimWalk, takeFits, String.join]
  | cons it older ih =>
    intro conv cl
    unfold trimWalk takeFits
    by_cases hb : 4 * (cl + tokLen it.message) > 3 * trainCtx
    · simp [hb, String.join]
    · simp only [hb, if_false]
      rw [ih (serializeTurn it ++ conv) (cl + tokLen (serializeTurn it))]
      rw [List.reverse_cons, List.map_append, List.map_singleton,
        join_append_single, String.append_assoc]

/-- Claim C4 counterexample: with the tokenizer below (a legitimate
external tokenizer: the source assumes nothing about it), the check
admits the turn because its bare message tokenizes to 0, but the
serialized turn the prompt actually accumulates tokenizes to 1000, far
over the budget 0.75 * 40 = 30, so the cumulative tokenized size of the
assembled history exceeds the budget. -/
def tokAdv (s : String) : ℕ := if s = "Human: m\n" then 1000 else 0

/-- Claim C4 counterexample: the turn is included, and the assembled
history weighs 1000 tokens against the budget of 30. -/
theorem trim_budget_counterexample :
    trimmedHistory tokAdv 40 "" (some "") "p" [⟨"human", "m"⟩]
      = [⟨"human", "m"⟩] ∧
    assembledHistoryTokens tokAdv 40 "" (some "") "p" [⟨"human", "m"⟩]
      = 1000 ∧
    ¬ (4 * assembledHistoryTokens tokAdv 40 "" (some "") "p"
        [⟨"human", "m"⟩] ≤ 3 * 40) := by
  refine ⟨by decide, by decide, by decide⟩

/-- Claim C4 (amended): whenever each serialized turn tokenizes to at most
its message plus a constant K that the preamble measure covers (true of
any length-like tokenizer, since the serialization overhead is the short
short speaker wrapper while the preamble contains the instructions,
the marker line and the prompt tail), the cumulative tokenized size of
the assembled history stays within the budget of 75 percent of the
training context size; the included turns are always a contiguous suffix
of the history (oldest dropped first); and the conversation section of
the assembled prompt is exactly the concatenation of the full serialized
turns of that suffix, so no turn is truncated mid-turn. -/
theorem getPrompt_trim_spec (tokLen : String → ℕ) (trainCtx : ℕ)
    (instrDefault : String) (instructions : Option String) (prompt : String)
    (h : List HistItem) (K : ℕ)
    (hser : ∀ it : HistItem, tokLen (serializeTurn it)
      ≤ tokLen it.message + K)
    (hpre : K ≤ promptPreambleLen tokLen instrDefault instructions prompt) :
    4 * assembledHistoryTokens tokLen trainCtx instrDefault instructions
        prompt h ≤ 3 * trainCtx ∧
    (∃ pre, h = pre ++ trimmedHistory tokLen trainCtx instrDefault
        instructions prompt h) ∧
    getPromptTs tokLen trainCtx instrDefault instructions prompt (some h)
      = ((instructions.getD instrDefault) ++ "\n\n" ++ "Conversation:\n")
        ++ String.join ((trimmedHistory tokLen trainCtx instrDefault
            instructions prompt h).map serializeTurn)
        ++ promptTail prompt := by
  set cl0 := promptPreambleLen tokLen instrDefault instructions prompt
    with hcl0
  refine ⟨?_, ?_, ?_⟩
  · have hb := takeFits_budget tokLen trainCtx K hser h.reverse cl0 hpre
    have hsum : assembledHistoryTokens tokLen trainCtx instrDefault
        instructions prompt h
        = ((takeFits tokLen trainCtx h.reverse cl0).map
            (fun it => tokLen (serializeTurn it))).sum := by
      unfold assembledHistoryTokens trimmedHistory
      rw [← hcl0, List.map_reverse, List.sum_reverse]
    omega
  · rcases takeFits_isTake tokLen trainCtx h.reverse cl0 with ⟨rest, hrest⟩
    refine ⟨rest.reverse, ?_⟩
    unfold trimmedHistory
    rw [← hcl0]
    calc h = h.reverse.reverse := by rw [List.reverse_reverse]
    _ = (takeFits tokLen trainCtx h.reverse cl0 ++ rest).reverse := by
          rw [← hrest]
    _ = rest.reverse
          ++ (takeFits tokLen trainCtx h.reverse cl0).reverse := by
          rw [List.reverse_append]
  · have hred : getPromptTs tokLen trainCtx instrDefault instructions
        prompt (some h)
        = ((instructions.getD instrDefault) ++ "\n\n" ++ "Conversation:\n")
          ++ (trimWalk tokLen trainCtx h.reverse "" cl0).1
          ++ promptTail prompt := rfl
    rw [hred, trimWalk_join tokLen trainCtx h.reverse "" cl0,
      String.append_empty]
    unfold trimmedHistory
    rw [← hcl0]

/-- Claim C4 witness: the amended theorem applied with the
character-count tokenizer, overhead bound K = 8, a two-turn history and
training context 400. -/
theorem getPrompt_trim_spec_witness :
    (∀ it : HistItem, String.length (serializeTurn it)
      ≤ String.length it.message + 8) ∧
    8 ≤ promptPreambleLen String.length "sys" none "p" ∧
    (4 * assembledHistoryTokens String.length 400 "sys" none "p"
        [⟨"human", "hi"⟩, ⟨"ai", "yo"⟩] ≤ 3 * 400 ∧
      (∃ pre, [⟨"human", "hi"⟩, ⟨"ai", "yo"⟩]
        = pre ++ trimmedHistory String.length 400 "sys" none "p"
            [⟨"human", "hi"⟩, ⟨"ai", "yo"⟩]) ∧
      getPromptTs String.length 400 "sys" none "p"
          (some [⟨"human", "hi"⟩, ⟨"ai", "yo"⟩])
        = ("sys" ++ "\n\n" ++ "Conversation:\n")
          ++ String.join ((trimmedHistory String.length 400 "sys" none "p"
              [⟨"human", "hi"⟩, ⟨"ai", "yo"⟩]).map serializeTurn)
          ++ promptTail "p") := by
  have hser : ∀ it : HistItem, String.length (serializeTurn it)
      ≤ String.length it.message + 8 := by
    intro it
    unfold serializeTurn
    by_cases hai : it.source = "ai" <;>
      simp [hai, String.length_append,
        show ("AI: ").length = 4 from rfl,
        show ("Human: ").length = 7 from rfl,
        show ("\n").length = 1 from rfl] <;>
      omega
  exact ⟨hser, by decide,
    getPrompt_trim_spec String.length 400 "sys" none "p"
      [⟨"human", "hi"⟩, ⟨"ai", "yo"⟩] 8 hser (by decide)⟩

/-! ## Document index (src/unnamed/part_005)

addContent (lines 129-159) splits content into CHUNK_MAX_LENGTH character
slices, embeds each slice (a failing embedding aborts the loop, is logged
and swallowed), pushes each successfully embedded slice onto the shared
chunk list, then, when at least one embedding succeeded, records a
Document giving the chunk range of the content and inserts the embedding
batch into the vector database.  removeContent (lines 164-171) removes
the recorded index range from the vector database, splices it out of the
chunk list and drops the record.  getContext (lines 308-326) expands each
search hit into a window of surrounding chunks.  The external embedding
engine is a parameter embed, the vector database is the list vdb with
insert = append and remove by index, and content is a character list. -/

def CHUNK_MAX_LENGTH : ℕ := 512

structure RagDoc where
  name : String
  startIndex : ℕ
  length : ℕ
deriving DecidableEq

structure RagState (α : Type) where
  chunks : List (List Char)
  documents : List RagDoc
  vdb : List α
deriving DecidableEq

/-- The slicing loop for (j = 0; j < content.length; j += CHUNK_MAX_LENGTH):
structural recursion on the remaining length (the loop runs at most
content.length times, so the length is used as fuel). -/
def contentChunksGo : ℕ → List Char → List (List Char)
  | 0, _ => []
  | _, [] => []
  | fuel + 1, s => s.take CHUNK_MAX_LENGTH
      :: contentChunksGo fuel (s.drop CHUNK_MAX_LENGTH)

/-- The CHUNK_MAX_LENGTH character slices of a content. -/
def contentChunks (s : List Char) : List (List Char) :=
  contentChunksGo s.length s

/-- The embed-and-push loop of addContent: each iteration first embeds the
slice and then pushes it, so a failing embedding keeps only the slices
processed before it (the error is caught and swallowed by the caller). -/
def addLoop (embed : List Char → Option α) :
    List (List Char) → List (List Char) × List α
  | [] => ([], [])
  | c :: rest =>
    match embed c with
    | none => ([], [])
    | some v =>
      let r := addLoop embed rest
      (c :: r.1, v :: r.2)

/-- Array.from of removeContent: the index range of a document record. -/
def sliceRange (start len : ℕ) : List ℕ :=
  (List.range len).map (fun i => start + i)

/-- vectorDatabase.remove: drop the elements at the given indices. -/
def removeIndices (l : List α) (idxs : List ℕ) : List α :=
  ((l.enum).filter (fun p => !(idxs.contains p.1))).map Prod.snd

/-- chunks.splice(start, len): remove len elements starting at start. -/
def spliceOut (l : List α) (start len : ℕ) : List α :=
  l.take start ++ l.drop (start + len)

def removeContent (name : String) (st : RagState α) : RagState α :=
  match st.documents.find? (fun d => d.name == name) with
  | none => st
  | some d =>
    { chunks := spliceOut st.chunks d.startIndex d.length,
      documents := st.documents.filter (fun d2 => !(d2 == d)),
      vdb := removeIndices st.vdb (sliceRange d.startIndex d.length) }

/-- addContent: remove an existing document of the same name, slice and
embed the new content, append the slices to the chunk store, and when any
embedding succeeded record the document and insert the batch.  The record
takes startIndex from the chunk count AFTER the pushes, exactly as the
source does. -/
def addContent (embed : List Char → Option α) (name : String)
    (content : List Char) (st : RagState α) : RagState α :=
  let st0 := if (st.documents.find? (fun d => d.name == name)).isSome
    then removeContent name st else st
  let r := addLoop embed (contentChunks content)
  let st1 : RagState α := { st0 with chunks := st0.chunks ++ r.1 }
  if r.2.length > 0 then
    { st1 with
      documents := st1.documents ++ [⟨name, st1.chunks.length, r.2.length⟩],
      vdb := st1.vdb ++ r.2 }
  else st1

/-- Embedding oracle for the concrete traces: always succeeds, using the
slice itself as its vector. -/
def embedId : List Char → Option (List Char) := fun c => some c

def ragEmpty : RagState (List Char) := ⟨[], [], []⟩

/-- State after adding a 513 character document named d to the empty
store: two chunks at positions 0 and 1. -/
def c1afterFirst : RagState (List Char) :=
  addContent embedId "d" (List.replicate 513 'x') ragEmpty

/-- State after replacing document d with the single-chunk content y. -/
def c1afterSecond : RagState (List Char) :=
  addContent embedId "d" ['y'] c1afterFirst

set_option maxRecDepth 4000 in
/-- Claim C1: the code records startIndex = chunk count after appending,
so after adding a 513 character document (two chunks, sitting at
positions 0 and 1) the record claims range [2, 4); replacing the document
then splices the wrong range, the two old chunks survive, and the store
ends with three chunks instead of the single chunk of the new content. -/
theorem addContent_startIndex_bug :
    c1afterFirst.chunks.length = 2 ∧
    c1afterFirst.documents = [⟨"d", 2, 2⟩] ∧
    c1afterSecond.chunks.length = 3 ∧
    c1afterSecond.documents = [⟨"d", 3, 1⟩] ∧
    (contentChunks ['y']).length = 1 := by decide

/-! ### getContext windowing (part_005 lines 308-326)

For each hit index the source takes
chunks.slice(index - (maxChunks / 2 - 1), index + maxChunks / 2) and
joins it with spaces, with a "From name:\n" line when a recorded document
range covers the hit; the per-hit strings are joined with newlines in hit
order.  JS slice truncates its arguments toward zero and interprets a
negative start as counting from the end of the array; both behaviours are
embedded below (sliceStartArg and sliceEndArg spell out the truncation of
the halved maxChunks for even and odd values). -/

/-- Clamp rule of Array.prototype.slice for one argument. -/
def jsSliceIdx (len : ℕ) (x : ℤ) : ℕ :=
  if x < 0 then ((len : ℤ) + x).toNat else min x.toNat len

/-- Array.prototype.slice(s, e). -/
def jsSlice (l : List γ) (s e : ℤ) : List γ :=
  (l.take (jsSliceIdx l.length e)).drop (jsSliceIdx l.length s)

/-- Truncation of index - (m / 2 - 1): exact for even m; for odd m the
value is X - 0.5 with X = i + 1 - (m - 1) / 2, which truncates toward
zero to X - 1 when X is at least 1 and to X otherwise. -/
def sliceStartArg (i m : ℕ) : ℤ :=
  if m % 2 = 0 then (i : ℤ) + 1 - ((m / 2 : ℕ) : ℤ)
  else if 1 ≤ (i : ℤ) + 1 - (((m - 1) / 2 : ℕ) : ℤ)
    then (i : ℤ) - (((m - 1) / 2 : ℕ) : ℤ)
    else (i : ℤ) + 1 - (((m - 1) / 2 : ℕ) : ℤ)

/-- Truncation of index + m / 2: exact for even m; for odd m the value is
Y + 0.5 with Y = i + (m - 1) / 2 nonnegative, truncating to Y. -/
def sliceEndArg (i m : ℕ) : ℤ :=
  if m % 2 = 0 then (i : ℤ) + ((m / 2 : ℕ) : ℤ)
  else (i : ℤ) + (((m - 1) / 2 : ℕ) : ℤ)

/-- The chunk window of one hit. -/
def contextWindow (chunks : List (List Char)) (m i : ℕ) :
    List (List Char) :=
  jsSlice chunks (sliceStartArg i m) (sliceEndArg i m)

/-- Does a document record cover chunk index i. -/
def docCovers (d : RagDoc) (i : ℕ) : Bool :=
  decide (d.startIndex ≤ i) && decide (i < d.startIndex + d.length)

/-- The text produced for one hit: optional document name line, then the
window joined with spaces. -/
def hitText (chunks : List (List Char)) (docs : List RagDoc) (m i : ℕ) :
    List Char :=
  (match docs.find? (fun d => docCovers d i) with
   | some d => "From ".data ++ d.name.data ++ ":\n".data
   | none => []) ++ List.intercalate [' '] (contextWindow chunks m i)

/-- getContext: per-hit texts joined with newlines, in hit-rank order. -/
def getContextRag (chunks : List (List Char)) (docs : List RagDoc)
    (hits : List ℕ) (m : ℕ) : List Char :=
  List.intercalate ['\n'] (hits.map (hitText chunks docs m))

/-- Claim C8 counterexample: with the default maxChunks = 2 an interior
hit expands to chunks.slice(i, i + 1), a single chunk, not the two chunks
the claim promises. -/
theorem contextWindow_size_counterexample :
    contextWindow ["a".data, "b".data, "c".data] 2 1 = ["b".data] ∧
    (contextWindow ["a".data, "b".data, "c".data] 2 1).length ≠ 2 := by
  decide

/-- Claim C8 (amended): the per-hit strings are joined in hit-rank order;
every window is a contiguous sublist of the chunk store, so no position
outside [0, chunkCount) is ever accessed; and for an even maxChunks m and
a hit whose window stays inside the array the window holds exactly m - 1
chunks (m / 2 - 1 on each side of the hit), one fewer than the claim
states. -/
theorem getContext_window_spec (chunks : List (List Char))
    (docs : List RagDoc) (hits : List ℕ) (m : ℕ) :
    (getContextRag chunks docs hits m
      = List.intercalate ['\n'] (hits.map (hitText chunks docs m))) ∧
    (∀ i, ∃ pre post, chunks = pre ++ contextWindow chunks m i ++ post) ∧
    (∀ i, m % 2 = 0 → 2 ≤ m → m / 2 ≤ i + 1 → i + m / 2 ≤ chunks.length →
      (contextWindow chunks m i).length = m - 1) := by
  refine ⟨rfl, ?_, ?_⟩
  · intro i
    refine ⟨(chunks.take (jsSliceIdx chunks.length (sliceEndArg i m))).take
        (jsSliceIdx chunks.length (sliceStartArg i m)),
      chunks.drop (jsSliceIdx chunks.length (sliceEndArg i m)), ?_⟩
    unfold contextWindow jsSlice
    rw [List.take_append_drop (jsSliceIdx chunks.length (sliceStartArg i m))
        (chunks.take (jsSliceIdx chunks.length (sliceEndArg i m))),
      List.take_append_drop (jsSliceIdx chunks.length (sliceEndArg i m))
        chunks]
  · intro i hm h2 hlo hhi
    have hs : sliceStartArg i m = (i : ℤ) + 1 - ((m / 2 : ℕ) : ℤ) := by
      simp [sliceStartArg, hm]
    have he : sliceEndArg i m = (i : ℤ) + ((m / 2 : ℕ) : ℤ) := by
      simp [sliceEndArg, hm]
    unfold contextWindow jsSlice
    rw [hs, he]
    have h1 : jsSliceIdx chunks.length ((i : ℤ) + 1 - ((m / 2 : ℕ) : ℤ))
        = i + 1 - m / 2 := by
      have hnn : ¬ ((i : ℤ) + 1 - ((m / 2 : ℕ) : ℤ) < 0) := by omega
      unfold jsSliceIdx
      rw [if_neg hnn]
      omega
    have h3 : jsSliceIdx chunks.length ((i : ℤ) + ((m / 2 : ℕ) : ℤ))
        = i + m / 2 := by
      have hnn : ¬ ((i : ℤ) + ((m / 2 : ℕ) : ℤ) < 0) := by omega
      unfold jsSliceIdx
      rw [if_neg hnn]
      omega
    rw [h1, h3, List.length_drop, List.length_take]
    omega

/-- The four-chunk store used in the window witness. -/
def c8chunks : List (List Char) := ["a".data, "b".data, "c".data, "d".data]

/-- Claim C8 witness: the amended theorem applied with four chunks,
maxChunks 4 and hit index 2; the window holds exactly three chunks. -/
theorem getContext_window_spec_witness :
    ((4 : ℕ) % 2 = 0 ∧ (2 : ℕ) ≤ 4 ∧ (4 : ℕ) / 2 ≤ 2 + 1 ∧
      2 + (4 : ℕ) / 2 ≤ c8chunks.length) ∧
    (contextWindow c8chunks 4 2).length = 4 - 1 :=
  ⟨by decide,
    (getContext_window_spec c8chunks [] [] 4).2.2 2
      (by decide) (by decide) (by decide) (by decide)⟩

/-! ## Model registry
(src/src/models/LlamacppGenerativeAIWorkerConnector.ts, first revision:
initialize lines 183-228, close lines 234-252, processJob lines 263-377,
processJobStream lines 384-506)

The static registry is embedded as an explicit state: the engine flag
(set once by getLlama), the insertion-ordered models map (a JS Map of
model id to a record holding the worker model and an optional cached
context), the process-wide embedding context, a fresh counter issuing
engine resource identities, and the trace of calls made into the
inference engine.  Calls that touch no registry state and make no engine
call (console logging, token meters, the prompt text itself) are not
recorded; the prompt-options computation is embedded separately below. -/

inductive OutputType where
  | text
  | vector
deriving DecidableEq

/-- One value of the models map handed to the connector: engine type,
optional weight path, declared output modality. -/
structure ModelSpec where
  engineType : String
  pathName : Option String
  outputType : OutputType
deriving DecidableEq

/-- ILlamacppGenerativeAIWorkerModel: path, modality, optional loaded
engine handle, and the set of referencing workflow ids (a JS Set,
embedded as a duplicate-free list in insertion order). -/
structure WorkerModel where
  pathName : String
  outputType : OutputType
  handle : Option ℕ
  workflows : List String
deriving DecidableEq

/-- One entry of the static models map: the worker model plus the cached
context of processJob. -/
structure RegEntry where
  model : WorkerModel
  context : Option ℕ
deriving DecidableEq

/-- Calls made into the external inference engine. -/
inductive EngineEvent where
  | engineLoad
  | modelLoad (path : String) (h : ℕ)
  | modelDispose (h : ℕ)
  | embeddingContextCreate (e : ℕ)
  | embeddingContextDispose (e : ℕ)
  | contextCreate (c : ℕ)
  | contextDispose (c : ℕ)
  | sequenceGet
  | sessionPrompt
  | embed
deriving DecidableEq

structure RegState where
  engineLoaded : Bool
  entries : List (String × RegEntry)
  embeddingContext : Option ℕ
  fresh : ℕ
  events : List EngineEvent
deriving DecidableEq

def initialState : RegState := ⟨false, [], none, 0, []⟩

/-- Map.get. -/
def mapGet (m : List (String × RegEntry)) (k : String) : Option RegEntry :=
  (m.find? (fun p => p.1 == k)).map Prod.snd

/-- setModel of the source: update the model of an existing entry in
place (keeping its cached context), or append a fresh entry with no
context, as a JS Map does. -/
def setModelEntry : List (String × RegEntry) → String → WorkerModel →
    List (String × RegEntry)
  | [], k, m => [(k, ⟨m, none⟩)]
  | (k2, e) :: rest, k, m =>
    if k2 == k then (k2, ⟨m, e.context⟩) :: rest
    else (k2, e) :: setModelEntry rest k m

/-- setContext of the source: update the context of an existing entry;
a missing entry is left untouched. -/
def setContextEntry : List (String × RegEntry) → String → Option ℕ →
    List (String × RegEntry)
  | [], _, _ => []
  | (k2, e) :: rest, k, c =>
    if k2 == k then (k2, ⟨e.model, c⟩) :: rest
    else (k2, e) :: setContextEntry rest k c

/-- Set.add on the workflow list. -/
def wfAdd (l : List String) (w : String) : List String :=
  if l.contains w then l else l ++ [w]

/-- Set.delete on the workflow list. -/
def wfDelete (l : List String) (w : String) : List String :=
  l.filter (fun x => !(x == w))

/-- getEngine: load the engine once, then reuse it. -/
def getEngine (st : RegState) : RegState :=
  if st.engineLoaded then st
  else
    { st with
      engineLoaded := true
      events := st.events ++ [EngineEvent.engineLoad] }

/-- One iteration of the initialize loop: skip non-llamacpp or pathless
specs; add the workflow to an existing entry; otherwise create the entry,
loading the handle (and, when absent, the shared embedding context)
eagerly for vector models and lazily (no handle) for text models.  The
returned flag records whether this.workflowId was assigned. -/
def initModelStep (w : String) (st : RegState) (ns : String × ModelSpec) :
    RegState × Bool :=
  match ns.2.pathName with
  | none => (st, false)
  | some path =>
    if ns.2.engineType ≠ "llamacpp" then (st, false)
    else
      match mapGet st.entries ns.1 with
      | some e =>
        let m2 := { e.model with workflows := wfAdd e.model.workflows w }
        ({ st with entries := setModelEntry st.entries ns.1 m2 }, true)
      | none =>
        match ns.2.outputType with
        | OutputType.vector =>
          let h := st.fresh
          let st1 : RegState :=
            { st with
              fresh := st.fresh + 1
              events := st.events ++ [EngineEvent.modelLoad path h] }
          let st2 : RegState :=
            match st1.embeddingContext with
            | none =>
              { st1 with
                embeddingContext := some st1.fresh
                fresh := st1.fresh + 1
                events := st1.events
                  ++ [EngineEvent.embeddingContextCreate st1.fresh] }
            | some _ => st1
          let m2 : WorkerModel := ⟨path, OutputType.vector, some h, [w]⟩
          ({ st2 with entries := setModelEntry st2.entries ns.1 m2 }, true)
        | OutputType.text =>
          let m2 : WorkerModel := ⟨path, OutputType.text, none, [w]⟩
          ({ st with entries := setModelEntry st.entries ns.1 m2 }, true)

/-- initialize(workflowId, models): acquire the engine, then run the loop
over the given specs.  The flag is true when at least one spec was
processed, that is when the connector instance recorded workflowId. -/
def initConnector (w : String) (specs : List (String × ModelSpec))
    (st : RegState) : RegState × Bool :=
  specs.foldl
    (fun acc ns =>
      let r := initModelStep w acc.1 ns
      (r.1, acc.2 || r.2))
    (getEngine st, false)

/-- The close loop over the models map: remove the workflow from each
reference set; an entry whose set becomes empty has its handle disposed
(when loaded) and is deleted; other entries are stored back unchanged
apart from the reference set. -/
def closeEntries (w : String) : List (String × RegEntry) →
    List (String × RegEntry) × List EngineEvent
  | [] => ([], [])
  | (id, e) :: rest =>
    let wfs := wfDelete e.model.workflows w
    let r := closeEntries w rest
    if wfs.isEmpty then
      match e.model.handle with
      | some h => (r.1, EngineEvent.modelDispose h :: r.2)
      | none => (r.1, r.2)
    else
      ((id, ⟨{ e.model with workflows := wfs }, e.context⟩) :: r.1, r.2)

/-- close(): a no-op when the connector never recorded a workflowId;
otherwise the shared embedding context, when present, is disposed
unconditionally (and not cleared), and then the close loop runs. -/
def closeOp (wid : Option String) (st : RegState) : RegState :=
  match wid with
  | none => st
  | some w =>
    let st1 :=
      match st.embeddingContext with
      | some e => { st with
          events := st.events ++ [EngineEvent.embeddingContextDispose e] }
      | none => st
    let r := closeEntries w st1.entries
    { st1 with entries := r.1, events := st1.events ++ r.2 }

/-- The eviction loop of processJob when the requested handle is missing:
every loaded text-modality handle is disposed and cleared. -/
def evictTextHandles : List (String × RegEntry) →
    List (String × RegEntry) × List EngineEvent
  | [] => ([], [])
  | (id, e) :: rest =>
    let r := evictTextHandles rest
    match e.model.outputType, e.model.handle with
    | OutputType.text, some h =>
      ((id, ⟨{ e.model with handle := none }, e.context⟩) :: r.1,
        EngineEvent.modelDispose h :: r.2)
    | _, _ => ((id, e) :: r.1, r.2)

inductive JobError where
  | modelNotInitialized
  | embeddingContextNotInitialized
  | unsupportedOperation
deriving DecidableEq

inductive JobOutput where
  | textOut
  | vectorOut
deriving DecidableEq

/-- processJob: acquire the engine; fail when the model id was never
registered; when the entry has no cached handle, evict every loaded text
handle and load this model - WITHOUT storing the loaded handle back into
the registry entry, exactly as the source does; then the vector path uses
the shared embedding context, and the text path creates (or reuses) the
cached per-model context, takes a sequence, prompts, and disposes the
context when its sequence budget (the external sequencesLeft value,
passed in as seqLeftAfter) equals options.sequences ?? 1. -/
def processJobOp (modelId : String) (jobOutputType : OutputType)
    (optSequences : Option ℕ) (seqLeftAfter : ℕ) (st : RegState) :
    RegState × Except JobError JobOutput :=
  let st0 := getEngine st
  match mapGet st0.entries modelId with
  | none => (st0, Except.error JobError.modelNotInitialized)
  | some entry =>
    let acq : RegState × ℕ :=
      match entry.model.handle with
      | some h => (st0, h)
      | none =>
        let ev := evictTextHandles st0.entries
        ({ st0 with
            entries := ev.1
            events := st0.events ++ ev.2
              ++ [EngineEvent.modelLoad entry.model.pathName st0.fresh]
            fresh := st0.fresh + 1 }, st0.fresh)
    let st1 := acq.1
    if jobOutputType = OutputType.vector then
      match st1.embeddingContext with
      | none => (st1, Except.error JobError.embeddingContextNotInitialized)
      | some _ =>
        ({ st1 with events := st1.events ++ [EngineEvent.embed] },
          Except.ok JobOutput.vectorOut)
    else
      let ctxAcq : RegState × ℕ :=
        match (mapGet st1.entries modelId).bind RegEntry.context with
        | some c => (st1, c)
        | none =>
          ({ st1 with
              entries := setContextEntry st1.entries modelId (some st1.fresh)
              events := st1.events ++ [EngineEvent.contextCreate st1.fresh]
              fresh := st1.fresh + 1 }, st1.fresh)
      let st2 := ctxAcq.1
      let st3 : RegState :=
        { st2 with
          events := st2.events
            ++ [EngineEvent.sequenceGet, EngineEvent.sessionPrompt] }
      let st4 : RegState :=
        if seqLeftAfter = optSequences.getD 1 then
          { st3 with
            events := st3.events ++ [EngineEvent.contextDispose ctxAcq.2]
            entries := setContextEntry st3.entries modelId none }
        else st3
      (st4, Except.ok JobOutput.textOut)

/-- The prefix of processJobStream up to and including the vector-output
check: engine acquisition, registry lookup, the same evict-and-load step
when the handle is missing, then the unsupported-operation rejection for
vector modality.  The streaming body past this point is not needed by any
claim. -/
def processJobStreamStart (modelId : String) (jobOutputType : OutputType)
    (st : RegState) : RegState × Option JobError :=
  let st0 := getEngine st
  match mapGet st0.entries modelId with
  | none => (st0, some JobError.modelNotInitialized)
  | some entry =>
    let acq : RegState × ℕ :=
      match entry.model.handle with
      | some h => (st0, h)
      | none =>
        let ev := evictTextHandles st0.entries
        ({ st0 with
            entries := ev.1
            events := st0.events ++ ev.2
              ++ [EngineEvent.modelLoad entry.model.pathName st0.fresh]
            fresh := st0.fresh + 1 }, st0.fresh)
    let st1 := acq.1
    if jobOutputType = OutputType.vector then
      (st1, some JobError.unsupportedOperation)
    else (st1, none)

/-- How many model loads the trace holds. -/
def countModelLoads (evs : List EngineEvent) : ℕ :=
  (evs.filter (fun e => match e with
    | EngineEvent.modelLoad _ _ => true
    | _ => false)).length

/-- How many model disposals the trace holds. -/
def countModelDisposes (evs : List EngineEvent) : ℕ :=
  (evs.filter (fun e => match e with
    | EngineEvent.modelDispose _ => true
    | _ => false)).length

/-- A text model spec used in the reload trace. -/
def textSpec : ModelSpec := ⟨"llamacpp", some "model.gguf", OutputType.text⟩

/-- Workflow w1 registers the text model m. -/
def c2s1 : RegState := (initConnector "w1" [("m", textSpec)] initialState).1

/-- One text job on m. -/
def c2s2 : RegState := (processJobOp "m" OutputType.text none 1 c2s1).1

/-- A second text job on m. -/
def c2s3 : RegState := (processJobOp "m" OutputType.text none 1 c2s2).1

/-- w1 releases. -/
def c2s4 : RegState := closeOp (some "w1") c2s3

/-- Claim C2: processJob never stores the loaded handle back into the
registry (the source loads into a local variable and omits the
modelObj.model assignment its own eviction loop and the later part_005
revision rely on), so two jobs on the same registered text model load its
weights twice while w1 still references it, the entry still holds no
handle, and close consequently never disposes the loaded handles. -/
theorem processJob_reloads_unreleased_model :
    countModelLoads c2s3.events = 2 ∧
    (mapGet c2s3.entries "m").map (fun e => e.model.workflows)
      = some ["w1"] ∧
    (mapGet c2s3.entries "m").map (fun e => e.model.handle) = some none ∧
    countModelDisposes c2s4.events = 0 := by decide

/-- A vector model spec used in the shared-reference traces. -/
def vecSpec : ModelSpec := ⟨"llamacpp", some "vec.gguf", OutputType.vector⟩

/-- Workflow w1 registers the vector model m: handle 0 is loaded and the
shared embedding context 1 is created. -/
def c3s1 : RegState := (initConnector "w1" [("m", vecSpec)] initialState).1

/-- Workflow w2 registers the same model: the entry is shared. -/
def c3s2 : RegState := (initConnector "w2" [("m", vecSpec)] c3s1).1

/-- w1 releases while w2 still references m. -/
def c3s3 : RegState := closeOp (some "w1") c3s2

/-- Claim C3 counterexample: releasing w1 disposes the embedding context
created for the vector model m even though w2 still references m, so a
release is not free of disposals while another workflow holds a
reference. -/
theorem close_disposes_embedding_context_while_referenced :
    c3s2.embeddingContext = some 1 ∧
    (mapGet c3s2.entries "m").map (fun e => e.model.workflows)
      = some ["w1", "w2"] ∧
    EngineEvent.embeddingContextDispose 1 ∈ c3s3.events ∧
    (mapGet c3s3.entries "m").map (fun e => e.model.workflows)
      = some ["w2"] := by decide

theorem closeEntries_eq (w : String) (l : List (String × RegEntry)) :
    closeEntries w l =
      (l.filterMap (fun p =>
        if (wfDelete p.2.model.workflows w).isEmpty then none
        else some (p.1,
          ⟨{ p.2.model with workflows := wfDelete p.2.model.workflows w },
            p.2.context⟩)),
      (l.filter
          (fun p => (wfDelete p.2.model.workflows w).isEmpty)).filterMap
        (fun p => p.2.model.handle.map EngineEvent.modelDispose)) := by
  induction l with
  | nil => rfl
  | cons p rest ih =>
    obtain ⟨id, e⟩ := p
    unfold closeEntries
    rw [ih]
    cases hwl : wfDelete e.model.workflows w with
    | nil =>
      cases hh : e.model.handle with
      | none => simp [hwl, hh]
      | some h => simp [hwl, hh]
    | cons a as => simp [hwl]

/-- Claim C3 (amended): close by a connector that never registered is a
no-op; close(w1) removes w1 from every reference set; an entry is deleted
exactly when its set empties, and only then is its model handle disposed,
while every surviving entry keeps its handle and its cached context
untouched (per-model contexts are never disposed by close at all); but
the process-wide embedding context, whenever present, is disposed on
every close by a registered caller - even while other workflows still
reference the models - and the registry field still points at it
afterwards, so a repeated close disposes it again. -/
theorem close_release_spec (st : RegState) (w : String) :
    closeOp none st = st ∧
    (closeOp (some w) st).entries
      = st.entries.filterMap (fun p =>
          if (wfDelete p.2.model.workflows w).isEmpty then none
          else some (p.1,
            ⟨{ p.2.model with
                workflows := wfDelete p.2.model.workflows w },
              p.2.context⟩)) ∧
    (closeOp (some w) st).events
      = (st.events
        ++ (match st.embeddingContext with
            | some e => [EngineEvent.embeddingContextDispose e]
            | none => []))
        ++ ((st.entries.filter
            (fun p => (wfDelete p.2.model.workflows w).isEmpty)).filterMap
          (fun p => p.2.model.handle.map EngineEvent.modelDispose)) ∧
    (closeOp (some w) st).embeddingContext = st.embeddingContext := by
  refine ⟨rfl, ?_, ?_, ?_⟩ <;>
    cases hec : st.embeddingContext <;>
      simp [closeOp, closeEntries_eq, hec]

/-! ## Prompt options: functions against grammar
(processJob of the current .ts revision, lines 323-339, against processJob
of the part_005 multi-sequence revision, lines 682-711)

Only the data handed to session.prompt matters for the claim: whether a
functions object is passed and which grammar is compiled.  A functions
map is any JS Map (truthy even when empty); in the part_005 revision it
is passed only when nonempty. -/

inductive GrammarChoice where
  | builtin (g : String)
  | boolSchema
  | custom (g : String)
deriving DecidableEq

structure PromptOptions where
  functions : Option (List String)
  grammar : Option GrammarChoice
deriving DecidableEq

/-- The promptOptions computation of processJob in the current .ts
revision: json and json_arr clear the functions, but a caller-supplied
schema (any grammar other than json, json_arr and default) sets the
grammar WITHOUT clearing the functions, exactly as the source does. -/
def promptOptionsTs (functions : Option (List String))
    (grammar : Option String) : PromptOptions :=
  let base : PromptOptions := ⟨functions, none⟩
  match grammar with
  | none => base
  | some g =>
    if g = "json" ∨ g = "json_arr" then
      ⟨none, some (GrammarChoice.builtin g)⟩
    else if g ≠ "default" then ⟨base.functions, some (GrammarChoice.custom g)⟩
    else base

/-- The promptOptions computation of processJob in the part_005
multi-sequence revision: functions only pass when nonempty, and every
grammar branch (json/json_arr, the boolean if_else schema, and the
caller-supplied schema) clears them. -/
def promptOptionsDist (functions : Option (List String))
    (grammar : Option String) : PromptOptions :=
  let fns : Option (List String) :=
    match functions with
    | some l => if l.length > 0 then some l else none
    | none => none
  let base : PromptOptions := ⟨fns, none⟩
  match grammar with
  | none => base
  | some g =>
    if g = "json" ∨ g = "json_arr" then
      ⟨none, some (GrammarChoice.builtin g)⟩
    else if g = "if_else" then ⟨none, some GrammarChoice.boolSchema⟩
    else if g ≠ "default" then ⟨none, some (GrammarChoice.custom g)⟩
    else base

/-- Claim C7: in the current .ts processJob a caller-supplied schema
grammar is passed together with a nonempty functions map (the clearing
assignment present in the json/json_arr branch, and in every branch of
the later part_005 revision, is missing), so both constraints reach the
engine call at once. -/
theorem promptOptions_custom_grammar_keeps_functions :
    promptOptionsTs (some ["f"]) (some "myschema")
      = ⟨some ["f"], some (GrammarChoice.custom "myschema")⟩ ∧
    promptOptionsTs (some ["f"]) (some "json")
      = ⟨none, some (GrammarChoice.builtin "json")⟩ ∧
    promptOptionsDist (some ["f"]) (some "myschema")
      = ⟨none, some (GrammarChoice.custom "myschema")⟩ ∧
    promptOptionsDist (some ["f"]) (some "if_else")
      = ⟨none, some GrammarChoice.boolSchema⟩ := by decide

/-! ## Reachable registry states and the vector-handle invariant

Connectors drive the registry only through initialize, close, processJob
and processJobStream.  In every state these operations can reach, a
registered vector model keeps a loaded handle (initialize loads vector
models eagerly, the eviction loop clears only text handles, and close
deletes an entry outright when it disposes its handle), and the engine is
loaded whenever any entry exists (every registration starts by acquiring
the engine, which is never unloaded). -/

inductive Reachable : RegState → Prop where
  | start : Reachable initialState
  | doInit (w : String) (specs : List (String × ModelSpec)) {st : RegState} :
      Reachable st → Reachable (initConnector w specs st).1
  | doClose (wid : Option String) {st : RegState} :
      Reachable st → Reachable (closeOp wid st)
  | doJob (modelId : String) (ot : OutputType) (os : Option ℕ) (sl : ℕ)
      {st : RegState} :
      Reachable st → Reachable (processJobOp modelId ot os sl st).1
  | doStream (modelId : String) (ot : OutputType) {st : RegState} :
      Reachable st → Reachable (processJobStreamStart modelId ot st).1

/-- Every registered vector model holds a loaded handle. -/
def VHL (l : List (String × RegEntry)) : Prop :=
  ∀ p ∈ l, p.2.model.outputType = OutputType.vector →
    p.2.model.handle ≠ none

/-- The registry invariant: vector handles loaded, and the engine loaded
as soon as any entry exists. -/
def RegInv (st : RegState) : Prop :=
  VHL st.entries ∧ (st.entries = [] ∨ st.engineLoaded = true)

theorem getEngine_entries (st : RegState) :
    (getEngine st).entries = st.entries := by
  unfold getEngine
  split <;> rfl

theorem getEngine_loaded (st : RegState) :
    (getEngine st).engineLoaded = true := by
  unfold getEngine
  split
  · assumption
  · rfl

theorem getEngine_embedding (st : RegState) :
    (getEngine st).embeddingContext = st.embeddingContext := by
  unfold getEngine
  split <;> rfl

theorem mapGet_mem {m : List (String × RegEntry)} {k : String}
    {e : RegEntry} (h : mapGet m k = some e) : (k, e) ∈ m := by
  unfold mapGet at h
  cases hf : m.find? (fun p => p.1 == k) with
  | none => rw [hf] at h; simp at h
  | some p =>
    rw [hf] at h
    simp at h
    have hp := List.mem_of_find?_eq_some hf
    have hk := List.find?_some hf
    obtain ⟨p1, p2⟩ := p
    have h2 : p2 = e := h
    have hk2 : p1 = k := by simpa using hk
    rw [← h2, ← hk2]
    exact hp

theorem VHL_setModelEntry {l : List (String × RegEntry)} {k : String}
    {m : WorkerModel} (hl : VHL l)
    (hm : m.outputType = OutputType.vector → m.handle ≠ none) :
    VHL (setModelEntry l k m) := by
  induction l with
  | nil =>
    intro p hp
    simp only [setModelEntry, List.mem_singleton] at hp
    subst hp
    exact hm
  | cons q rest ih =>
    obtain ⟨k2, e⟩ := q
    intro p hp
    unfold setModelEntry at hp
    by_cases hk : (k2 == k) = true
    · rw [if_pos hk] at hp
      rcases List.mem_cons.mp hp with h1 | h1
      · subst h1; exact hm
      · exact hl p (List.mem_cons_of_mem _ h1)
    · rw [if_neg hk] at hp
      rcases List.mem_cons.mp hp with h1 | h1
      · subst h1; exact hl _ (List.mem_cons_self _ _)
      · exact ih (fun q hq => hl q (List.mem_cons_of_mem _ hq)) p h1

theorem VHL_setContextEntry {l : List (String × RegEntry)} {k : String}
    {c : Option ℕ} (hl : VHL l) : VHL (setContextEntry l k c) := by
  induction l with
  | nil => intro p hp; simp [setContextEntry] at hp
  | cons q rest ih =>
    obtain ⟨k2, e⟩ := q
    intro p hp
    unfold setContextEntry at hp
    by_cases hk : (k2 == k) = true
    · rw [if_pos hk] at hp
      rcases List.mem_cons.mp hp with h1 | h1
      · subst h1
        exact hl (k2, e) (List.mem_cons_self _ _)
      · exact hl p (List.mem_cons_of_mem _ h1)
    · rw [if_neg hk] at hp
      rcases List.mem_cons.mp hp with h1 | h1
      · subst h1; exact hl _ (List.mem_cons_self _ _)
      · exact ih (fun q hq => hl q (List.mem_cons_of_mem _ hq)) p h1

theorem VHL_evict {l : List (String × RegEntry)} (hl : VHL l) :
    VHL (evictTextHandles l).1 := by
  induction l with
  | nil => intro p hp; simp [evictTextHandles] at hp
  | cons q rest ih =>
    obtain ⟨k2, e⟩ := q
    intro p hp
    have hrest : VHL (evictTextHandles rest).1 :=
      ih (fun q hq => hl q (List.mem_cons_of_mem _ hq))
    unfold evictTextHandles at hp
    cases hot : e.model.outputType with
    | text =>
      cases hh : e.model.handle with
      | some h0 =>
        rw [hot, hh] at hp
        rcases List.mem_cons.mp hp with h1 | h1
        · subst h1
          intro hv
          have hv2 : e.model.outputType = OutputType.vector := hv
          rw [hot] at hv2
          exact OutputType.noConfusion hv2
        · exact hrest p h1
      | none =>
        rw [hot, hh] at hp
        rcases List.mem_cons.mp hp with h1 | h1
        · subst h1; exact hl _ (List.mem_cons_self _ _)
        · exact hrest p h1
    | vector =>
      rw [hot] at hp
      cases hh : e.model.handle with
      | some h0 =>
        rw [hh] at hp
        rcases List.mem_cons.mp hp with h1 | h1
        · subst h1; exact hl _ (List.mem_cons_self _ _)
        · exact hrest p h1
      | none =>
        rw [hh] at hp
        rcases List.mem_cons.mp hp with h1 | h1
        · subst h1; exact hl _ (List.mem_cons_self _ _)
        · exact hrest p h1

theorem initModelStep_engine (w : String) (st : RegState)
    (ns : String × ModelSpec) :
    (initModelStep w st ns).1.engineLoaded = st.engineLoaded := by
  unfold initModelStep
  split
  · rfl
  · split
    · rfl
    · split
      · rfl
      · split
        · dsimp only
          split <;> rfl
        · rfl

theorem initModelStep_vhl (w : String) (st : RegState)
    (ns : String × ModelSpec) (h : VHL st.entries) :
    VHL (initModelStep w st ns).1.entries := by
  unfold initModelStep
  split
  · exact h
  · split
    · exact h
    · split
      · rename_i e hm
        refine VHL_setModelEntry h ?_
        intro hv
        have hmem := mapGet_mem hm
        exact h _ hmem hv
      · split
        · dsimp only
          split
          · exact VHL_setModelEntry h (fun _ => by simp)
          · exact VHL_setModelEntry h (fun _ => by simp)
        · exact VHL_setModelEntry h (fun hv => by simp at hv)

theorem initConnector_inv (w : String) (specs : List (String × ModelSpec))
    (st : RegState) (h : RegInv st) :
    RegInv (initConnector w specs st).1 := by
  obtain ⟨hvh, _⟩ := h
  unfold initConnector
  have hstart : VHL (getEngine st).entries ∧
      (getEngine st).engineLoaded = true := by
    rw [getEngine_entries]
    exact ⟨hvh, getEngine_loaded st⟩
  have hfold : ∀ (l : List (String × ModelSpec)) (acc : RegState × Bool),
      VHL acc.1.entries → acc.1.engineLoaded = true →
      VHL (l.foldl (fun acc ns =>
          let r := initModelStep w acc.1 ns
          (r.1, acc.2 || r.2)) acc).1.entries ∧
      (l.foldl (fun acc ns =>
          let r := initModelStep w acc.1 ns
          (r.1, acc.2 || r.2)) acc).1.engineLoaded = true := by
    intro l
    induction l with
    | nil => exact fun acc h1 h2 => ⟨h1, h2⟩
    | cons ns rest ih =>
      intro acc h1 h2
      rw [List.foldl_cons]
      exact ih _ (initModelStep_vhl w acc.1 ns h1)
        ((initModelStep_engine w acc.1 ns).trans h2)

  have hres := hfold specs (getEngine st, false) hstart.1 hstart.2
  exact ⟨hres.1, Or.inr hres.2⟩

theorem closeOp_entries (w : String) (st : RegState) :
    (closeOp (some w) st).entries = (closeEntries w st.entries).1 := by
  unfold closeOp
  cases hec : st.embeddingContext <;> simp [hec]

theorem closeOp_engine (w : String) (st : RegState) :
    (closeOp (some w) st).engineLoaded = st.engineLoaded := by
  unfold closeOp
  cases hec : st.embeddingContext <;> simp [hec]

theorem closeOp_inv (wid : Option String) (st : RegState) (h : RegInv st) :
    RegInv (closeOp wid st) := by
  obtain ⟨hvh, hrd⟩ := h
  cases wid with
  | none => exact ⟨hvh, hrd⟩
  | some w =>
    constructor
    · intro p hp
      rw [closeOp_entries, closeEntries_eq] at hp
      rcases List.mem_filterMap.mp hp with ⟨q, hq, hfq⟩
      by_cases hw : (wfDelete q.2.model.workflows w).isEmpty
      · rw [if_pos hw] at hfq
        exact absurd hfq (by simp)
      · rw [if_neg hw] at hfq
        have hpq := Option.some.inj hfq
        rw [← hpq]
        intro hv
        exact hvh q hq hv
    · rcases hrd with h0 | h0
      · left
        rw [closeOp_entries, closeEntries_eq, h0]
        rfl
      · right
        rw [closeOp_engine]
        exact h0

theorem processJobOp_inv (modelId : String) (ot : OutputType)
    (os : Option ℕ) (sl : ℕ) (st : RegState) (h : RegInv st) :
    RegInv (processJobOp modelId ot os sl st).1 := by
  obtain ⟨hvh, _⟩ := h
  have hvh0 : VHL (getEngine st).entries := by
    rw [getEngine_entries]
    exact hvh
  have hld := getEngine_loaded st
  unfold processJobOp
  dsimp only
  cases hm : mapGet (getEngine st).entries modelId with
  | none => exact ⟨hvh0, Or.inr hld⟩
  | some entry =>
    dsimp only
    cases hh : entry.model.handle with
    | some h0 =>
      dsimp only
      by_cases hvec : ot = OutputType.vector
      · rw [if_pos hvec]
        cases hec : (getEngine st).embeddingContext with
        | none => exact ⟨hvh0, Or.inr hld⟩
        | some ec => exact ⟨hvh0, Or.inr hld⟩
      · rw [if_neg hvec]
        cases hctx : (mapGet (getEngine st).entries modelId).bind
            RegEntry.context with
        | some c =>
          dsimp only
          by_cases hsl : sl = os.getD 1
          · rw [if_pos hsl]
            exact ⟨VHL_setContextEntry hvh0, Or.inr hld⟩
          · rw [if_neg hsl]
            exact ⟨hvh0, Or.inr hld⟩
        | none =>
          dsimp only
          by_cases hsl : sl = os.getD 1
          · rw [if_pos hsl]
            exact ⟨VHL_setContextEntry (VHL_setContextEntry hvh0),
              Or.inr hld⟩
          · rw [if_neg hsl]
            exact ⟨VHL_setContextEntry hvh0, Or.inr hld⟩
    | none =>
      dsimp only
      have hvh1 : VHL (evictTextHandles (getEngine st).entries).1 :=
        VHL_evict hvh0
      by_cases hvec : ot = OutputType.vector
      · rw [if_pos hvec]
        cases hec : (getEngine st).embeddingContext with
        | none => exact ⟨hvh1, Or.inr hld⟩
        | some ec => exact ⟨hvh1, Or.inr hld⟩
      · rw [if_neg hvec]
        cases hctx : (mapGet (evictTextHandles (getEngine st).entries).1
            modelId).bind RegEntry.context with
        | some c =>
          dsimp only
          by_cases hsl : sl = os.getD 1
          · rw [if_pos hsl]
            exact ⟨VHL_setContextEntry hvh1, Or.inr hld⟩
          · rw [if_neg hsl]
            exact ⟨hvh1, Or.inr hld⟩
        | none =>
          dsimp only
          by_cases hsl : sl = os.getD 1
          · rw [if_pos hsl]
            exact ⟨VHL_setContextEntry (VHL_setContextEntry hvh1),
              Or.inr hld⟩
          · rw [if_neg hsl]
            exact ⟨VHL_setContextEntry hvh1, Or.inr hld⟩

theorem processJobStreamStart_inv (modelId : String) (ot : OutputType)
    (st : RegState) (h : RegInv st) :
    RegInv (processJobStreamStart modelId ot st).1 := by
  obtain ⟨hvh, _⟩ := h
  have hvh0 : VHL (getEngine st).entries := by
    rw [getEngine_entries]
    exact hvh
  have hld := getEngine_loaded st
  unfold processJobStreamStart
  dsimp only
  cases hm : mapGet (getEngine st).entries modelId with
  | none => exact ⟨hvh0, Or.inr hld⟩
  | some entry =>
    dsimp only
    cases hh : entry.model.handle with
    | some h0 =>
      dsimp only
      by_cases hvec : ot = OutputType.vector
      · rw [if_pos hvec]
        exact ⟨hvh0, Or.inr hld⟩
      · rw [if_neg hvec]
        exact ⟨hvh0, Or.inr hld⟩
    | none =>
      dsimp only
      have hvh1 : VHL (evictTextHandles (getEngine st).entries).1 :=
        VHL_evict hvh0
      by_cases hvec : ot = OutputType.vector
      · rw [if_pos hvec]
        exact ⟨hvh1, Or.inr hld⟩
      · rw [if_neg hvec]
        exact ⟨hvh1, Or.inr hld⟩

theorem reachable_inv {st : RegState} (h : Reachable st) : RegInv st := by
  induction h with
  | start =>
    refine ⟨?_, Or.inl rfl⟩
    intro p hp
    simp [initialState] at hp
  | doInit w specs hst ih => exact initConnector_inv w specs _ ih
  | doClose wid hst ih => exact closeOp_inv wid _ ih
  | doJob modelId ot os sl hst ih => exact processJobOp_inv modelId ot os sl _ ih
  | doStream modelId ot hst ih => exact processJobStreamStart_inv modelId ot _ ih

/-- Claim C6: in every reachable registry state, streaming against a
model registered with vector output modality fails with the
unsupported-operation error and leaves the state - including the engine
call trace - completely unchanged: no engine load, no model load, no
context creation precedes the failure (registration already loaded the
vector handle and the engine, so the prefix of processJobStream makes no
engine call before the rejection). -/
theorem stream_vector_rejected_before_engine_calls (st : RegState)
    (modelId : String) (e : RegEntry) (hreach : Reachable st)
    (hget : mapGet st.entries modelId = some e)
    (hvec : e.model.outputType = OutputType.vector) :
    processJobStreamStart modelId OutputType.vector st
      = (st, some JobError.unsupportedOperation) := by
  obtain ⟨hvh, hready⟩ := reachable_inv hreach
  have hne : st.entries ≠ [] := by
    intro h0
    rw [h0] at hget
    simp [mapGet] at hget
  have hload : st.engineLoaded = true := by
    rcases hready with h0 | h0
    · exact absurd h0 hne
    · exact h0
  have hge : getEngine st = st := by
    unfold getEngine
    rw [if_pos hload]
  have hmem : (modelId, e) ∈ st.entries := mapGet_mem hget
  have hh : e.model.handle ≠ none := hvh _ hmem hvec
  cases hh0 : e.model.handle with
  | none => exact absurd hh0 hh
  | some h0 =>
    unfold processJobStreamStart
    rw [hge]
    dsimp only
    rw [hget]
    dsimp only
    rw [hh0]
    simp

/-- A reachable state with a registered vector model: w1 registers m. -/
def c6st : RegState := (initConnector "w1" [("m", vecSpec)] initialState).1

/-- Claim C6 witness: the theorem applied to the state in which w1 has
registered the vector model m. -/
theorem stream_vector_rejected_witness :
    processJobStreamStart "m" OutputType.vector c6st
      = (c6st, some JobError.unsupportedOperation) := by
  exact stream_vector_rejected_before_engine_calls c6st "m"
    ⟨⟨"vec.gguf", OutputType.vector, some 0, ["w1"]⟩, none⟩
    (Reachable.doInit "w1" [("m", vecSpec)] Reachable.start)
    (by decide) rfl

end LlamaSpec
